import Mathlib

set_option linter.unusedSectionVars false

/-
Verification of starky's constraint consumer
(src/starky/src/constraint_consumer.rs).

The native `ConstraintConsumer` folds emitted constraints into running sums
by Horner steps `acc = acc * alpha + constraint`, one running sum per
challenge.  Packed field values (plonky2's `PackedField`) are modelled as
fixed-width vectors `Fin w → F` over a commutative ring `F`, with
componentwise arithmetic (the Pi ring instance) and a broadcast embedding of
scalars, following the spec's description of the packed abstraction as a
fixed-width array-like container with componentwise arithmetic.

The recursive `RecursiveConstraintConsumer` is modelled symbolically: wires
are natural-number handles, the circuit builder is a growing list of gate
definitions, and evaluation under a witness assignment is an environment
extension pass over the emitted gates.
-/

namespace Starky

/-- Modelled from the spec: a packed field value (plonky2's `PackedField`,
which lives outside src/) is a fixed-width container of `w` scalar lanes
with componentwise arithmetic and no cross-lane interaction. -/
abbrev Packed (F : Type) (w : ℕ) := Fin w → F

variable {F : Type} {w : ℕ}

/-- Modelled from the spec: multiplying a packed value by a scalar
(`PackedField: Mul<Self::Scalar>`) applies the scalar to every lane;
equivalently, the scalar is broadcast to all lanes. -/
def broadcast (w : ℕ) (a : F) : Packed F w := fun _ => a

/-- Modelled from the spec: `PackedField::as_slice` views the packed value
as a slice of its `w` lanes, in lane order. -/
def Packed.asSlice (p : Packed F w) : List F := List.ofFn p

/-- The native constraint accumulator
(`ConstraintConsumer<P>` in constraint_consumer.rs). -/
structure ConstraintConsumer (F : Type) (w : ℕ) where
  alphas : List F
  constraint_accs : List (Packed F w)
  lagrange_basis_first : Packed F w
  lagrange_basis_last : Packed F w

namespace ConstraintConsumer

variable [CommRing F]

/-- `ConstraintConsumer::new`: one running sum per challenge, initialized
to `P::ZEROS`; the challenges and both Lagrange basis values are stored. -/
def new (alphas : List F) (lagrange_basis_first lagrange_basis_last : Packed F w) :
    ConstraintConsumer F w :=
  { alphas := alphas
    constraint_accs := List.replicate alphas.length 0
    lagrange_basis_first := lagrange_basis_first
    lagrange_basis_last := lagrange_basis_last }

/-- `ConstraintConsumer::accumulators`: maps each running sum to element 0
of its lane slice.  The Rust indexing `acc.as_slice()[0]` is partial, so it
is modelled with `List.get?`: a `none` result marks an out-of-bounds panic. -/
def accumulators (c : ConstraintConsumer F w) : List (Option F) :=
  c.constraint_accs.map (fun acc => acc.asSlice.get? 0)

/-- The in-place update of the running sums performed by
`ConstraintConsumer::one`: the loop runs over `alphas.iter().zip(&mut
constraint_accs)`, so only the first `min` entries are updated and any
running sums beyond the number of challenges are left untouched. -/
def oneAccs (alphas : List F) (accs : List (Packed F w)) (constraint : Packed F w) :
    List (Packed F w) :=
  List.zipWith (fun alpha acc => acc * broadcast w alpha + constraint) alphas accs
    ++ accs.drop alphas.length

/-- `ConstraintConsumer::one`: for each pair `(alpha, acc)`,
`acc = acc * alpha + constraint`. -/
def one (c : ConstraintConsumer F w) (constraint : Packed F w) : ConstraintConsumer F w :=
  { c with constraint_accs := oneAccs c.alphas c.constraint_accs constraint }

/-- `ConstraintConsumer::many`: folds `one` over the constraint sequence in
iterator order. -/
def many (c : ConstraintConsumer F w) (constraints : List (Packed F w)) :
    ConstraintConsumer F w :=
  constraints.foldl (fun c constraint => c.one constraint) c

/-- `ConstraintConsumer::one_first_row`: multiplies the constraint by the
first-row Lagrange basis value before folding it in. -/
def one_first_row (c : ConstraintConsumer F w) (constraint : Packed F w) :
    ConstraintConsumer F w :=
  c.one (constraint * c.lagrange_basis_first)

/-- `ConstraintConsumer::one_last_row`: multiplies the constraint by the
last-row Lagrange basis value before folding it in. -/
def one_last_row (c : ConstraintConsumer F w) (constraint : Packed F w) :
    ConstraintConsumer F w :=
  c.one (constraint * c.lagrange_basis_last)

/-- Sequential emission, written the way the spec words it: `n` sequential
`emit_one` calls, one constraint at a time, in sequence order.  Used to
compare against `many`. -/
def emitOneSeq : ConstraintConsumer F w → List (Packed F w) → ConstraintConsumer F w
  | c, [] => c
  | c, constraint :: rest => emitOneSeq (c.one constraint) rest

end ConstraintConsumer

/-- Horner evaluation of the polynomial whose coefficient sequence is the
emitted constraints: `((...((0*alpha + c1)*alpha + c2)...)*alpha + cn)`. -/
def horner [CommRing F] (alpha : F) (cs : List F) : F :=
  cs.foldl (fun acc c => acc * alpha + c) 0

/-- A wire handle for a base-field circuit value (plonky2's `Target`). -/
abbrev Target := ℕ

/-- A wire handle for an extension-field circuit value
(plonky2's `ExtensionTarget<D>`). -/
abbrev ExtensionTarget := ℕ

/-- The gate requests the constraint consumer issues against the circuit
builder: a scalar multiply-accumulate and an extension multiplication. -/
inductive GateDef where
  | scalarMulAdd (a : Target) (x y : ExtensionTarget)
  | mulExt (x y : ExtensionTarget)

/-- Modelled from the spec: the external `CircuitBuilder` (plonky2's
circuit-construction session, outside src/) is a growing graph of gates;
each gate-construction request allocates a fresh output wire and records
the gate defining it. -/
structure CircuitBuilder where
  fresh : ℕ
  defs : List (ℕ × GateDef)

/-- Modelled from the spec: `builder.scalar_mul_add_extension(a, x, y)` is
the fused multiply-add gate request, producing a new wire whose value is
`a * x + y`. -/
def CircuitBuilder.scalarMulAddExtension (b : CircuitBuilder) (a : Target)
    (x y : ExtensionTarget) : ExtensionTarget × CircuitBuilder :=
  (b.fresh, { fresh := b.fresh + 1
              defs := b.defs ++ [(b.fresh, GateDef.scalarMulAdd a x y)] })

/-- Modelled from the spec: `builder.mul_extension(x, y)` produces a new
wire whose value is `x * y`. -/
def CircuitBuilder.mulExtension (b : CircuitBuilder) (x y : ExtensionTarget) :
    ExtensionTarget × CircuitBuilder :=
  (b.fresh, { fresh := b.fresh + 1
              defs := b.defs ++ [(b.fresh, GateDef.mulExt x y)] })

/-- The value a gate's output wire takes, given a witness assignment `envT`
for base-field wires and `env` for extension wires. -/
def evalGate [CommRing F] (envT env : ℕ → F) : GateDef → F
  | GateDef.scalarMulAdd a x y => envT a * env x + env y
  | GateDef.mulExt x y => env x * env y

/-- Point update of a witness environment. -/
def updateEnv (env : ℕ → F) (i : ℕ) (v : F) : ℕ → F :=
  fun j => if j = i then v else env j

/-- Extends a witness environment over a list of gate definitions in
creation order: each gate's output wire is assigned the value of its
defining expression under the environment built so far. -/
def extendEnv [CommRing F] (envT : ℕ → F) : (ℕ → F) → List (ℕ × GateDef) → (ℕ → F)
  | env, [] => env
  | env, (i, g) :: rest => extendEnv envT (updateEnv env i (evalGate envT env g)) rest

/-- The circuit-symbolic accumulator
(`RecursiveConstraintConsumer<F, D>` in constraint_consumer.rs). -/
structure RecursiveConstraintConsumer where
  alpha : Target
  constraint_acc : ExtensionTarget
  lagrange_basis_first : ExtensionTarget
  lagrange_basis_last : ExtensionTarget

namespace RecursiveConstraintConsumer

/-- `RecursiveConstraintConsumer::one`: issues a scalar-mul-add gate
request `alpha * constraint_acc + constraint` and replaces the stored
running-sum wire with the newly produced wire. -/
def one (c : RecursiveConstraintConsumer) (b : CircuitBuilder)
    (constraint : ExtensionTarget) : RecursiveConstraintConsumer × CircuitBuilder :=
  let r := b.scalarMulAddExtension c.alpha c.constraint_acc constraint
  ({ c with constraint_acc := r.1 }, r.2)

/-- `RecursiveConstraintConsumer::many`: folds `one` over the constraint
wires in iterator order, threading the builder through. -/
def many (c : RecursiveConstraintConsumer) (b : CircuitBuilder)
    (constraints : List ExtensionTarget) : RecursiveConstraintConsumer × CircuitBuilder :=
  constraints.foldl (fun p constraint => p.1.one p.2 constraint) (c, b)

/-- `RecursiveConstraintConsumer::one_first_row`: multiplies the constraint
wire by the first-row Lagrange basis wire, then folds the product in. -/
def one_first_row (c : RecursiveConstraintConsumer) (b : CircuitBuilder)
    (constraint : ExtensionTarget) : RecursiveConstraintConsumer × CircuitBuilder :=
  let m := b.mulExtension constraint c.lagrange_basis_first
  c.one m.2 m.1

/-- `RecursiveConstraintConsumer::one_last_row`: multiplies the constraint
wire by the last-row Lagrange basis wire, then folds the product in. -/
def one_last_row (c : RecursiveConstraintConsumer) (b : CircuitBuilder)
    (constraint : ExtensionTarget) : RecursiveConstraintConsumer × CircuitBuilder :=
  let m := b.mulExtension constraint c.lagrange_basis_last
  c.one m.2 m.1

/-- Sequential emission, written the way the spec words it: `n` sequential
`emit_one` calls against the builder, in sequence order. -/
def emitOneSeq : RecursiveConstraintConsumer → CircuitBuilder → List ExtensionTarget →
    RecursiveConstraintConsumer × CircuitBuilder
  | c, b, [] => (c, b)
  | c, b, x :: xs => emitOneSeq (c.one b x).1 (c.one b x).2 xs

end RecursiveConstraintConsumer

end Starky

namespace Starky

section NativeLemmas

variable [CommRing F]

theorem oneAccs_length (alphas : List F) (accs : List (Packed F w)) (k : Packed F w) :
    (ConstraintConsumer.oneAccs alphas accs k).length = accs.length := by
  simp [ConstraintConsumer.oneAccs]
  omega

theorem one_alphas (c : ConstraintConsumer F w) (k : Packed F w) :
    (c.one k).alphas = c.alphas := rfl

theorem oneAccs_map (alphas : List F) (g : F → Packed F w) (k : Packed F w) :
    ConstraintConsumer.oneAccs alphas (alphas.map g) k
      = alphas.map (fun alpha => g alpha * broadcast w alpha + k) := by
  induction alphas with
  | nil => rfl
  | cons a rest ih =>
      simp only [ConstraintConsumer.oneAccs, List.map_cons, List.zipWith_cons_cons,
        List.length_cons, List.drop_succ_cons] at *
      simpa [ConstraintConsumer.oneAccs] using ih

theorem many_accs_map (g : F → Packed F w) (cs : List (Packed F w))
    (c : ConstraintConsumer F w) (h : c.constraint_accs = c.alphas.map g) :
    (c.many cs).constraint_accs
      = c.alphas.map (fun alpha =>
          cs.foldl (fun acc k => acc * broadcast w alpha + k) (g alpha)) := by
  induction cs generalizing c g with
  | nil => simpa [ConstraintConsumer.many] using h
  | cons k rest ih =>
      have hstep : (c.one k).constraint_accs
          = (c.one k).alphas.map (fun alpha => g alpha * broadcast w alpha + k) := by
        simp [ConstraintConsumer.one, h, oneAccs_map, one_alphas]
      have := ih (fun alpha => g alpha * broadcast w alpha + k) (c.one k) hstep
      simpa [ConstraintConsumer.many, one_alphas] using this

theorem asSlice_get_zero (hw : 0 < w) (p : Packed F w) :
    p.asSlice.get? 0 = some (p ⟨0, hw⟩) := by
  cases w with
  | zero => exact absurd hw (by simp)
  | succ n => simp [Packed.asSlice, List.ofFn_succ]

theorem asSlice_getElem_zero (hw : 0 < w) (p : Packed F w) :
    p.asSlice[0]? = some (p ⟨0, hw⟩) := by
  simpa [List.get?_eq_getElem?] using asSlice_get_zero hw p

theorem horner_lane (alpha : F) (cs : List (Packed F w)) (z : Packed F w) (j : Fin w) :
    (cs.foldl (fun acc k => acc * broadcast w alpha + k) z) j
      = (cs.map (fun k => k j)).foldl (fun acc c => acc * alpha + c) (z j) := by
  induction cs generalizing z with
  | nil => rfl
  | cons k rest ih => simpa [broadcast] using ih (z * broadcast w alpha + k)

theorem many_fields [CommRing F] (c : ConstraintConsumer F w) (ks : List (Packed F w)) :
    (c.many ks).alphas = c.alphas
      ∧ (c.many ks).lagrange_basis_first = c.lagrange_basis_first
      ∧ (c.many ks).lagrange_basis_last = c.lagrange_basis_last
      ∧ (c.many ks).constraint_accs.length = c.constraint_accs.length := by
  induction ks generalizing c with
  | nil => exact ⟨rfl, rfl, rfl, rfl⟩
  | cons k rest ih =>
      obtain ⟨h1, h2, h3, h4⟩ := ih (c.one k)
      exact ⟨h1, h2, h3, by
        simpa [ConstraintConsumer.many, ConstraintConsumer.one, oneAccs_length] using h4⟩

theorem one_of_empty_alphas [CommRing F] (c : ConstraintConsumer F w)
    (h : c.alphas = []) (k : Packed F w) : c.one k = c := by
  cases c with
  | mk alphas accs lbf lbl =>
      subst h
      rfl

theorem many_of_empty_alphas [CommRing F] (c : ConstraintConsumer F w)
    (h : c.alphas = []) (ks : List (Packed F w)) : c.many ks = c := by
  induction ks generalizing c with
  | nil => rfl
  | cons k rest ih =>
      have hone := one_of_empty_alphas c h k
      calc c.many (k :: rest) = (c.one k).many rest := rfl
        _ = c.many rest := by rw [hone]
        _ = c := ih c h

theorem oneAccs_getD [CommRing F] (alphas : List F) (accs : List (Packed F w))
    (k : Packed F w) (i : ℕ) (hi : i < alphas.length) (hi' : i < accs.length) :
    (ConstraintConsumer.oneAccs alphas accs k).getD i 0
      = accs.getD i 0 * broadcast w (alphas.getD i 0) + k := by
  induction alphas generalizing accs i with
  | nil => simp at hi
  | cons a rest ih =>
      cases accs with
      | nil => simp at hi'
      | cons acc more =>
          cases i with
          | zero => simp [ConstraintConsumer.oneAccs]
          | succ n =>
              have := ih more n (by simpa using hi) (by simpa using hi')
              simpa [ConstraintConsumer.oneAccs] using this

theorem native_many_eq_seq [CommRing F] (c : ConstraintConsumer F w)
    (cs : List (Packed F w)) :
    c.many cs = ConstraintConsumer.emitOneSeq c cs := by
  induction cs generalizing c with
  | nil => rfl
  | cons k rest ih => exact ih (c.one k)

theorem recursive_many_eq_seq (c : RecursiveConstraintConsumer) (b : CircuitBuilder)
    (ts : List ExtensionTarget) :
    c.many b ts = RecursiveConstraintConsumer.emitOneSeq c b ts := by
  induction ts generalizing c b with
  | nil => rfl
  | cons t rest ih =>
      calc c.many b (t :: rest)
          = rest.foldl (fun p x => p.1.one p.2 x) (c.one b t) := rfl
        _ = (c.one b t).1.many (c.one b t).2 rest := by
              simp [RecursiveConstraintConsumer.many]
        _ = RecursiveConstraintConsumer.emitOneSeq (c.one b t).1 (c.one b t).2 rest :=
              ih (c.one b t).1 (c.one b t).2

end NativeLemmas

section NativeClaims

variable [CommRing F]

/-- C1 counterexample: for challenges `[2]` and constraints emitted in
order `[3, 5, 7]`, the single residual is not `45`: the Horner value
`((0*2+3)*2+5)*2+7` equals `29`. -/
theorem horner_fold_45_counterexample :
    ([broadcast 1 (3 : ℤ), broadcast 1 5, broadcast 1 7].foldl (fun c k => c.one k)
        (ConstraintConsumer.new [(2 : ℤ)] (broadcast 1 0) (broadcast 1 0))).accumulators
      ≠ [some (45 : ℤ)] := by
  decide

/-- C1 (amended).  Horner-fold correctness: starting from a fresh consumer
with challenge list `A`, emitting the constraints `cs` one at a time via
`ConstraintConsumer.one` in order and then calling `accumulators` yields,
for each challenge `alpha`, the Horner value
`((...((0*alpha + c1)*alpha + c2)...)*alpha + cn)` of the emitted
constraints (lane 0 of packed values); in particular, for challenges `[2]`
and constraints `[3, 5, 7]` the single residual is `29`. -/
theorem horner_fold_correct (A : List F) (lbf lbl : Packed F w)
    (cs : List (Packed F w)) (hw : 0 < w) :
    (cs.foldl (fun c k => c.one k) (ConstraintConsumer.new A lbf lbl)).accumulators
      = A.map (fun alpha => some (horner alpha (cs.map (fun k => k ⟨0, hw⟩)))) := by
  have h0 : (ConstraintConsumer.new (w := w) A lbf lbl).constraint_accs
      = (ConstraintConsumer.new (w := w) A lbf lbl).alphas.map
          (fun _ => (0 : Packed F w)) := by
    simp [ConstraintConsumer.new]
  have hm := many_accs_map (fun _ => (0 : Packed F w)) cs
    (ConstraintConsumer.new A lbf lbl) h0
  show (ConstraintConsumer.many _ cs).accumulators = _
  simp only [ConstraintConsumer.accumulators, hm]
  have halphas : (ConstraintConsumer.new (w := w) A lbf lbl).alphas = A := rfl
  rw [halphas, List.map_map]
  refine List.map_congr_left (fun alpha _ => ?_)
  simp [Function.comp, asSlice_get_zero hw, asSlice_getElem_zero hw, horner_lane,
    horner]

/-- C1 witness: challenges `[2]`, constraints `[3, 5, 7]` emitted in order
give the single residual `((0*2+3)*2+5)*2+7 = 29`. -/
theorem horner_fold_correct_witness :
    ([broadcast 1 (3 : ℤ), broadcast 1 5, broadcast 1 7].foldl (fun c k => c.one k)
        (ConstraintConsumer.new [(2 : ℤ)] (broadcast 1 0) (broadcast 1 0))).accumulators
      = [some (29 : ℤ)] :=
  (horner_fold_correct [(2 : ℤ)] (broadcast 1 0) (broadcast 1 0)
      [broadcast 1 3, broadcast 1 5, broadcast 1 7] (by decide)).trans (by decide)

/-- C3.  Boundary-filter semantics: `one_first_row c` has exactly the effect
of `one (c * lagrange_basis_first)` and `one_last_row c` that of
`one (c * lagrange_basis_last)`; when the respective indicator is `1` the
folded value is the constraint itself, and when it is `0` the folded value
is `0`. -/
theorem boundary_filter_semantics (A : List F) (B : List (Packed F w))
    (f l k : Packed F w) :
    (ConstraintConsumer.mk A B f l).one_first_row k
        = (ConstraintConsumer.mk A B f l).one (k * f)
      ∧ (ConstraintConsumer.mk A B f l).one_last_row k
        = (ConstraintConsumer.mk A B f l).one (k * l)
      ∧ (ConstraintConsumer.mk A B 1 l).one_first_row k
        = (ConstraintConsumer.mk A B 1 l).one k
      ∧ (ConstraintConsumer.mk A B 0 l).one_first_row k
        = (ConstraintConsumer.mk A B 0 l).one 0
      ∧ (ConstraintConsumer.mk A B f 1).one_last_row k
        = (ConstraintConsumer.mk A B f 1).one k
      ∧ (ConstraintConsumer.mk A B f 0).one_last_row k
        = (ConstraintConsumer.mk A B f 0).one 0 := by
  refine ⟨rfl, rfl, ?_, ?_, ?_, ?_⟩ <;>
    simp [ConstraintConsumer.one_first_row, ConstraintConsumer.one_last_row]

/-- C6.  Construction postcondition: `new` stores the challenges in the
given order, creates exactly one running sum per challenge, each
initialized to the additive identity, and stores both boundary indicators
unchanged. -/
theorem new_postcondition (A : List F) (lbf lbl : Packed F w) :
    (ConstraintConsumer.new A lbf lbl).alphas = A
      ∧ (ConstraintConsumer.new A lbf lbl).constraint_accs
          = List.replicate A.length (0 : Packed F w)
      ∧ (ConstraintConsumer.new A lbf lbl).constraint_accs.length = A.length
      ∧ (ConstraintConsumer.new A lbf lbl).lagrange_basis_first = lbf
      ∧ (ConstraintConsumer.new A lbf lbl).lagrange_basis_last = lbl :=
  ⟨rfl, rfl, by simp [ConstraintConsumer.new], rfl, rfl⟩

/-- C7.  No-panic on empty challenges: a consumer built from an empty
challenge list has an empty accumulator list, every emission operation
leaves it unchanged, and `accumulators` returns the empty sequence; no
operation can fail. -/
theorem empty_challenges_total (lbf lbl k : Packed F w) (ks : List (Packed F w)) :
    (ConstraintConsumer.new ([] : List F) lbf lbl).constraint_accs = []
      ∧ (ConstraintConsumer.new ([] : List F) lbf lbl).one k
          = ConstraintConsumer.new [] lbf lbl
      ∧ (ConstraintConsumer.new ([] : List F) lbf lbl).many ks
          = ConstraintConsumer.new [] lbf lbl
      ∧ (ConstraintConsumer.new ([] : List F) lbf lbl).one_first_row k
          = ConstraintConsumer.new [] lbf lbl
      ∧ (ConstraintConsumer.new ([] : List F) lbf lbl).one_last_row k
          = ConstraintConsumer.new [] lbf lbl
      ∧ (ConstraintConsumer.new ([] : List F) lbf lbl).accumulators = [] :=
  ⟨rfl, one_of_empty_alphas _ rfl k, many_of_empty_alphas _ rfl ks,
    one_of_empty_alphas _ rfl _, one_of_empty_alphas _ rfl _, rfl⟩

/-- C8.  Frame property: `one`, `many`, `one_first_row` and `one_last_row`
leave the `alphas`, `lagrange_basis_first` and `lagrange_basis_last` fields
unchanged and preserve the number of running sums. -/
theorem frame_property (c : ConstraintConsumer F w) (k : Packed F w)
    (ks : List (Packed F w)) :
    ((c.one k).alphas = c.alphas
        ∧ (c.one k).lagrange_basis_first = c.lagrange_basis_first
        ∧ (c.one k).lagrange_basis_last = c.lagrange_basis_last
        ∧ (c.one k).constraint_accs.length = c.constraint_accs.length)
      ∧ ((c.many ks).alphas = c.alphas
        ∧ (c.many ks).lagrange_basis_first = c.lagrange_basis_first
        ∧ (c.many ks).lagrange_basis_last = c.lagrange_basis_last
        ∧ (c.many ks).constraint_accs.length = c.constraint_accs.length)
      ∧ ((c.one_first_row k).alphas = c.alphas
        ∧ (c.one_first_row k).lagrange_basis_first = c.lagrange_basis_first
        ∧ (c.one_first_row k).lagrange_basis_last = c.lagrange_basis_last
        ∧ (c.one_first_row k).constraint_accs.length = c.constraint_accs.length)
      ∧ ((c.one_last_row k).alphas = c.alphas
        ∧ (c.one_last_row k).lagrange_basis_first = c.lagrange_basis_first
        ∧ (c.one_last_row k).lagrange_basis_last = c.lagrange_basis_last
        ∧ (c.one_last_row k).constraint_accs.length = c.constraint_accs.length) :=
  ⟨⟨rfl, rfl, rfl, oneAccs_length _ _ _⟩,
    many_fields c ks,
    ⟨rfl, rfl, rfl, oneAccs_length _ _ _⟩,
    ⟨rfl, rfl, rfl, oneAccs_length _ _ _⟩⟩

/-- C5.  Finalize lane extraction: `accumulators` returns one scalar per
challenge, in challenge order (positionally: one entry per running sum,
hence per challenge), each entry being lane zero of the corresponding
packed running sum. -/
theorem finalize_lane_extraction (c : ConstraintConsumer F w) (hw : 0 < w)
    (hlen : c.constraint_accs.length = c.alphas.length) :
    c.accumulators.length = c.alphas.length
      ∧ c.accumulators = c.constraint_accs.map (fun acc => some (acc ⟨0, hw⟩)) := by
  constructor
  · simp [ConstraintConsumer.accumulators, hlen]
  · exact List.map_congr_left (fun acc _ => asSlice_get_zero hw acc)

/-- C5 witness: a consumer with one challenge and running sum `[5]` returns
exactly `[some 5]`, of length one. -/
theorem finalize_lane_extraction_witness :
    (ConstraintConsumer.mk [(2 : ℤ)] [broadcast 1 (5 : ℤ)]
        (broadcast 1 0) (broadcast 1 0)).accumulators = [some (5 : ℤ)] :=
  ((finalize_lane_extraction
      (ConstraintConsumer.mk [(2 : ℤ)] [broadcast 1 (5 : ℤ)]
        (broadcast 1 0) (broadcast 1 0)) (by decide) (by decide)).2).trans (by decide)

/-- C10.  Finalize totality: for any packed width with at least one lane,
the lane-zero indexing performed by `accumulators` is in bounds for every
running sum, so `accumulators` returns a defined (non-panicking) value in
every position, whatever state the consumer is in. -/
theorem accumulators_no_panic (c : ConstraintConsumer F w) (hw : 0 < w) :
    c.accumulators.all Option.isSome = true := by
  rw [List.all_eq_true]
  intro o ho
  simp only [ConstraintConsumer.accumulators, List.mem_map] at ho
  obtain ⟨acc, _, rfl⟩ := ho
  rw [asSlice_get_zero hw]
  rfl

/-- C10 witness: a width-one consumer's `accumulators` output is all
defined. -/
theorem accumulators_no_panic_witness :
    (ConstraintConsumer.mk [(2 : ℤ)] [broadcast 1 (7 : ℤ)]
        (broadcast 1 0) (broadcast 1 0)).accumulators.all Option.isSome = true :=
  accumulators_no_panic
    (ConstraintConsumer.mk [(2 : ℤ)] [broadcast 1 (7 : ℤ)]
      (broadcast 1 0) (broadcast 1 0)) (by decide)

end NativeClaims

section ZeroConstraintClaim

variable [CommRing F] [NoZeroDivisors F]

/-- C9.  Emitting the zero constraint is not a no-op: `one 0` replaces each
running sum `acc_i` by `acc_i * alpha_i`, so a running sum with a nonzero
lane and a challenge different from `1` changes value; and with a zero
first-row indicator, `one_first_row` coincides with `one 0`, which still
rescales every running sum. -/
theorem zero_constraint_rescales (c : ConstraintConsumer F w) (i : ℕ) (j : Fin w)
    (k : Packed F w) (hi : i < c.alphas.length) (hi' : i < c.constraint_accs.length)
    (hnz : (c.constraint_accs.getD i 0) j ≠ 0) (ha : c.alphas.getD i 0 ≠ 1) :
    ((c.one 0).constraint_accs.getD i 0) j
        = (c.constraint_accs.getD i 0) j * c.alphas.getD i 0
      ∧ ((c.one 0).constraint_accs.getD i 0) j ≠ (c.constraint_accs.getD i 0) j
      ∧ (c.lagrange_basis_first = 0 → c.one_first_row k = c.one 0) := by
  have h1 : (c.one 0).constraint_accs.getD i 0
      = c.constraint_accs.getD i 0 * broadcast w (c.alphas.getD i 0) + 0 :=
    oneAccs_getD c.alphas c.constraint_accs 0 i hi hi'
  have h2 : ((c.one 0).constraint_accs.getD i 0) j
      = (c.constraint_accs.getD i 0) j * c.alphas.getD i 0 := by
    rw [h1]
    simp [broadcast]
  refine ⟨h2, ?_, ?_⟩
  · rw [h2]
    intro heq
    have : (c.constraint_accs.getD i 0) j * c.alphas.getD i 0
        = (c.constraint_accs.getD i 0) j * 1 := by
      rw [mul_one]
      exact heq
    exact ha (mul_left_cancel₀ hnz this)
  · intro h0
    simp [ConstraintConsumer.one_first_row, h0]

/-- C9 witness: alphas `[2]`, running sum `[1]`: emitting the zero
constraint changes the running sum from `1` to `2`. -/
theorem zero_constraint_rescales_witness :
    (((ConstraintConsumer.mk [(2 : ℤ)] [broadcast 1 (1 : ℤ)] (broadcast 1 0)
          (broadcast 1 0)).one 0).constraint_accs.getD 0 0) 0
        = ((ConstraintConsumer.mk [(2 : ℤ)] [broadcast 1 (1 : ℤ)] (broadcast 1 0)
          (broadcast 1 0)).constraint_accs.getD 0 0) 0 * 2
      ∧ (((ConstraintConsumer.mk [(2 : ℤ)] [broadcast 1 (1 : ℤ)] (broadcast 1 0)
          (broadcast 1 0)).one 0).constraint_accs.getD 0 0) 0
        ≠ ((ConstraintConsumer.mk [(2 : ℤ)] [broadcast 1 (1 : ℤ)] (broadcast 1 0)
          (broadcast 1 0)).constraint_accs.getD 0 0) 0
      ∧ ((ConstraintConsumer.mk [(2 : ℤ)] [broadcast 1 (1 : ℤ)] (broadcast 1 0)
          (broadcast 1 0)).lagrange_basis_first = 0 →
          (ConstraintConsumer.mk [(2 : ℤ)] [broadcast 1 (1 : ℤ)] (broadcast 1 0)
            (broadcast 1 0)).one_first_row (broadcast 1 9)
          = (ConstraintConsumer.mk [(2 : ℤ)] [broadcast 1 (1 : ℤ)] (broadcast 1 0)
            (broadcast 1 0)).one 0) :=
  zero_constraint_rescales
    (ConstraintConsumer.mk [(2 : ℤ)] [broadcast 1 (1 : ℤ)] (broadcast 1 0)
      (broadcast 1 0)) 0 0 (broadcast 1 9) (by decide) (by decide) (by decide) (by decide)

end ZeroConstraintClaim

section RecursiveClaims

variable [CommRing F]

/-- C2.  Native/symbolic equivalence: `RecursiveConstraintConsumer::one`
replaces the stored running-sum wire by the output wire of a new
scalar-mul-add gate, leaving the other fields unchanged; and under any
witness assignment, evaluating the gates the call added gives the new wire
exactly the value that the native `ConstraintConsumer::one` computes from
the corresponding concrete challenge, running sum and constraint values. -/
theorem native_symbolic_equivalence (c : RecursiveConstraintConsumer)
    (b : CircuitBuilder) (k : ExtensionTarget) (envT env : ℕ → F) :
    (c.one b k).1.constraint_acc = b.fresh
      ∧ (c.one b k).1.alpha = c.alpha
      ∧ (c.one b k).1.lagrange_basis_first = c.lagrange_basis_first
      ∧ (c.one b k).1.lagrange_basis_last = c.lagrange_basis_last
      ∧ (c.one b k).2.defs
          = b.defs ++ [(b.fresh, GateDef.scalarMulAdd c.alpha c.constraint_acc k)]
      ∧ ((ConstraintConsumer.mk [envT c.alpha] [broadcast 1 (env c.constraint_acc)]
            (broadcast 1 0) (broadcast 1 0)).one (broadcast 1 (env k))).accumulators
          = [some (extendEnv envT env ((c.one b k).2.defs.drop b.defs.length)
              ((c.one b k).1.constraint_acc))] := by
  refine ⟨rfl, rfl, rfl, rfl, rfl, ?_⟩
  have hdrop : ((c.one b k).2.defs.drop b.defs.length)
      = [(b.fresh, GateDef.scalarMulAdd c.alpha c.constraint_acc k)] := by
    simp [RecursiveConstraintConsumer.one, CircuitBuilder.scalarMulAddExtension]
  rw [hdrop]
  simp [ConstraintConsumer.one, ConstraintConsumer.oneAccs,
    ConstraintConsumer.accumulators, Packed.asSlice, extendEnv, updateEnv, evalGate,
    RecursiveConstraintConsumer.one, CircuitBuilder.scalarMulAddExtension,
    broadcast, List.ofFn_succ, mul_comm]

/-- C4.  Batch equivalence: for both the native and the recursive
consumer, `many` over a constraint sequence produces the identical final
state to emitting each constraint with `one` sequentially in order. -/
theorem batch_equivalence (c : ConstraintConsumer F w) (cs : List (Packed F w))
    (rc : RecursiveConstraintConsumer) (b : CircuitBuilder)
    (ts : List ExtensionTarget) :
    c.many cs = ConstraintConsumer.emitOneSeq c cs
      ∧ rc.many b ts = RecursiveConstraintConsumer.emitOneSeq rc b ts :=
  ⟨native_many_eq_seq c cs, recursive_many_eq_seq rc b ts⟩

end RecursiveClaims

end Starky
